import Mathlib

/-!
Verification development for the Badge document-chunking / vector-indexing /
retrieval pipeline.  Python strings are modelled as Lean `String`s inspected
through their character list (`String.data`); Python `float` arrays are
modelled with exact rationals (`ℚ`); fallible operations return the error
message together with the (possibly partially mutated) state.
-/

namespace Badge

/-! ## Text primitives (Python `str.split()`, `str.strip()`, `' '.join`) -/

/-- Whitespace test used by Python `str.split()` / `str.strip()`. -/
def isWs (c : Char) : Bool := c.isWhitespace

/-- Fuelled worker for `pyTokens`; the fuel is structurally decreasing so
that the kernel can evaluate it, and it always suffices when it starts at
the length of the list. -/
def pyTokensF : Nat → List Char → List (List Char)
  | 0, _ => []
  | fuel + 1, l =>
    match l with
    | [] => []
    | c :: cs =>
      if isWs c then pyTokensF fuel cs
      else (c :: cs.takeWhile (fun d => !(isWs d))) ::
        pyTokensF fuel (cs.dropWhile (fun d => !(isWs d)))

/-- Python `str.split()` with no arguments, at the character-list level:
the maximal runs of non-whitespace characters, in order. -/
def pyTokens (l : List Char) : List (List Char) := pyTokensF l.length l

/-- Python `sentence.split()`: the whitespace-separated words of a string. -/
def pyWords (s : String) : List String := (pyTokens s.data).map String.mk

/-- Python `' '.join` at the character-list level. -/
def joinTok : List (List Char) → List Char
  | [] => []
  | [x] => x
  | x :: y :: rest => x ++ ' ' :: joinTok (y :: rest)

/-- Python `' '.join(parts)`. -/
def joinSp (parts : List String) : String :=
  String.mk (joinTok (parts.map String.data))

/-- Python `str.strip()` at the character-list level. -/
def stripChars (l : List Char) : List Char :=
  ((l.dropWhile isWs).reverse.dropWhile isWs).reverse

/-- Python `str.strip()`. -/
def pyStrip (s : String) : String := String.mk (stripChars s.data)

/-! ## Sentence segmentation (`TextChunker._split_into_sentences`)

The regex `(?<=[.!?])\s+(?=[A-Z])` splits at every maximal whitespace run
that is directly preceded by `.`, `!` or `?` and directly followed by an
ASCII uppercase letter. -/

/-- Characters the sentence-boundary lookbehind `[.!?]` accepts. -/
def isSentEnd (c : Char) : Bool := c = '.' || c = '!' || c = '?'

/-- ASCII `[A-Z]`, the lookahead of the sentence-boundary regex. -/
def isUpperAZ (c : Char) : Bool := 'A' ≤ c && c ≤ 'Z'

/-- Fuelled worker for the regex split: `acc` holds the current piece
reversed.  The fuel is structurally decreasing (kernel-evaluable) and always
suffices when it starts at the length of the remaining input. -/
def sentSplitF : Nat → List Char → List Char → List (List Char)
  | 0, _, acc => [acc.reverse]
  | fuel + 1, l, acc =>
    match l with
    | [] => [acc.reverse]
    | c :: rest =>
      if isWs c && (match acc with | p :: _ => isSentEnd p | [] => false) then
        match rest.dropWhile isWs with
        | a :: after =>
          if isUpperAZ a then acc.reverse :: sentSplitF fuel (a :: after) []
          else sentSplitF fuel rest (c :: acc)
        | [] => sentSplitF fuel rest (c :: acc)
      else sentSplitF fuel rest (c :: acc)

/-- The regex split of `TextChunker._split_into_sentences`. -/
def sentSplitAux (l acc : List Char) : List (List Char) :=
  sentSplitF l.length l acc

/-- `TextChunker._split_into_sentences`: regex split, then strip each piece
and keep only the non-empty results. -/
def splitIntoSentences (text : String) : List String :=
  ((sentSplitAux text.data []).map (fun l => pyStrip (String.mk l))).filter
    (fun s => s ≠ "")

/-! ## Chunker data model and algorithm (`backend/chunker.py`) -/

/-- `models.ChunkMetadata`. -/
structure ChunkMetadata where
  chunk_id : String
  doc_id : String
  doc_type : String
  filename : String
  page_number : Option Nat
  chunk_index : Nat
  text : String
deriving Repr, DecidableEq

/-- A page dictionary `{page_number, text}` handed to `chunk_document`. -/
structure PageInfo where
  page_number : Nat
  text : String
deriving Repr, DecidableEq

/-- `TextChunker` configuration. -/
structure TextChunker where
  chunk_size : Nat
  chunk_overlap : Nat
  min_chunk_size : Nat
deriving Repr, DecidableEq

/-- The f-string `f"{doc_id}_chunk_{chunk_index}"`. -/
def mkChunkId (doc_id : String) (i : Nat) : String :=
  doc_id ++ "_chunk_" ++ toString i

/-- Python `l[-k:]` for `k > 0`: the last `min k l.length` elements. -/
def lastSlice (k : Nat) (l : List α) : List α := l.drop (l.length - k)

/-- The loop state of `TextChunker._chunk_text`: emitted chunks, the
accumulating sentence group, its running word count, and the next index. -/
structure ChunkState where
  chunks : List ChunkMetadata
  current_chunk : List String
  current_word_count : Nat
  chunk_index : Nat
deriving Repr, DecidableEq

/-- One iteration of the `for sentence in sentences` loop of
`TextChunker._chunk_text`. -/
def chunkStep (tc : TextChunker) (doc_id filename doc_type : String)
    (page_number : Option Nat) (st : ChunkState) (sentence : String) :
    ChunkState :=
  let word_count := (pyWords sentence).length
  if st.current_word_count + word_count > tc.chunk_size ∧ st.current_chunk ≠ [] then
    let chunk_text := joinSp st.current_chunk
    let emit :=
      if (pyWords chunk_text).length ≥ tc.min_chunk_size then
        (st.chunks ++ [⟨mkChunkId doc_id st.chunk_index, doc_id, doc_type,
          filename, page_number, st.chunk_index, chunk_text⟩],
         st.chunk_index + 1)
      else (st.chunks, st.chunk_index)
    let chunks' := emit.1
    let index' := emit.2
    if tc.chunk_overlap > 0 ∧ st.current_chunk.length > 0 then
      let all_words := pyWords (joinSp st.current_chunk)
      let overlap_text := joinSp (lastSlice tc.chunk_overlap all_words)
      { chunks := chunks', current_chunk := [overlap_text, sentence],
        current_word_count := (pyWords overlap_text).length + word_count,
        chunk_index := index' }
    else
      { chunks := chunks', current_chunk := [sentence],
        current_word_count := word_count, chunk_index := index' }
  else
    { st with current_chunk := st.current_chunk ++ [sentence],
              current_word_count := st.current_word_count + word_count }

/-- `TextChunker._chunk_text`: fold the loop over the sentences, then flush
the final accumulator under the same minimum-size rule. -/
def chunkText (tc : TextChunker) (text doc_id filename doc_type : String)
    (page_number : Option Nat) : List ChunkMetadata :=
  let sentences := splitIntoSentences text
  let st := sentences.foldl (chunkStep tc doc_id filename doc_type page_number)
    ⟨[], [], 0, 0⟩
  if st.current_chunk ≠ [] then
    let chunk_text := joinSp st.current_chunk
    if (pyWords chunk_text).length ≥ tc.min_chunk_size then
      st.chunks ++ [⟨mkChunkId doc_id st.chunk_index, doc_id, doc_type,
        filename, page_number, st.chunk_index, chunk_text⟩]
    else st.chunks
  else st.chunks

/-- `TextChunker.chunk_document`: split by page when a non-empty `pages`
list is supplied (Python truthiness of `pages`), otherwise chunk the whole
text at once. -/
def chunk_document (tc : TextChunker) (text doc_id filename doc_type : String)
    (pages : Option (List PageInfo)) : List ChunkMetadata :=
  match pages with
  | some ps =>
    if ps.isEmpty then chunkText tc text doc_id filename doc_type none
    else (ps.map (fun p =>
      chunkText tc p.text doc_id filename doc_type (some p.page_number))).flatten
  | none => chunkText tc text doc_id filename doc_type none

/-- Chunk `b` starts with the last `k` words (all words when there are
fewer than `k`) of chunk `a`. -/
def seedRel (k : Nat) (a b : ChunkMetadata) : Prop :=
  ∃ rest, pyWords b.text = lastSlice k (pyWords a.text) ++ rest

/-- Loop invariant for the overlap chain, used when the emission floor
`min_chunk_size` is `0` so that every closed group is emitted. -/
def OverlapInv (k : Nat) (st : ChunkState) : Prop :=
  List.Chain' (seedRel k) st.chunks ∧
  (st.current_chunk = [] → st.chunks = []) ∧
  (∀ a, st.chunks.getLast? = some a →
    ∃ rest, pyWords (joinSp st.current_chunk)
      = lastSlice k (pyWords a.text) ++ rest)

/-! ## Vector store (`backend/vector_store.py`)

The FAISS `IndexFlatL2` is modelled as the ordered list of its rows
(vectors of exact rationals standing for the float32 entries); `ntotal` is
the row count.  `IndexFlatL2.add` appends rows but rejects input whose
width differs from the index dimension before storing anything;
`IndexFlatL2.search` returns the `n` closest rows by squared L2 distance
in non-decreasing distance order; `reconstruct i` returns row `i`. -/

structure VectorStore where
  embedding_dim : Nat
  vectors : List (List ℚ)
  metadata : List ChunkMetadata

/-- `VectorStore.add_embeddings`.  Returns the state after the call
together with the raised error message, if any: the explicit length check
raises `ValueError`, and `faiss.IndexFlatL2.add` raises on a row-width
mismatch before mutating the index; the metadata append happens after the
index add, so an error leaves both untouched. -/
def add_embeddings (vs : VectorStore) (embeddings : List (List ℚ))
    (chunks : List ChunkMetadata) : VectorStore × Option String :=
  if embeddings.length ≠ chunks.length then
    (vs, some "Number of embeddings must match number of chunks")
  else if ¬ (embeddings.all (fun e => e.length = vs.embedding_dim)) then
    (vs, some "faiss: vector dimension mismatch")
  else
    ({ vs with vectors := vs.vectors ++ embeddings,
               metadata := vs.metadata ++ chunks }, none)

/-- Squared L2 distance, the metric of `IndexFlatL2`. -/
def sqDist (q v : List ℚ) : ℚ :=
  ((q.zip v).map (fun p => (p.1 - p.2) ^ 2)).sum

/-- Python truthiness of the `doc_ids` argument (`None` and `[]` are
falsy). -/
def truthyDocIds : Option (List String) → Bool
  | none => false
  | some l => !l.isEmpty

/-- `faiss.IndexFlatL2.search` ranking: every row ordinal paired with its
squared distance to the query, by non-decreasing distance (ties in
ordinal order). -/
def faissRank (vs : VectorStore) (q : List ℚ) : List (Nat × ℚ) :=
  (vs.vectors.map (sqDist q)).enum.mergeSort (fun a b => a.2 ≤ b.2)

/-- The result-collection loop of `VectorStore.search` (lines 112-128):
skip ordinals beyond the metadata list, apply the post-hoc `doc_ids`
filter, convert distance to similarity `1 / (1 + d)`, and break once
`top_k` results are collected. -/
def collectResults (metadata : List ChunkMetadata)
    (doc_ids : Option (List String)) (top_k : Nat) :
    List (Nat × ℚ) → List (ChunkMetadata × ℚ) → List (ChunkMetadata × ℚ)
  | [], acc => acc
  | (idx, dist) :: rest, acc =>
    if h : idx < metadata.length then
      let m := metadata.get ⟨idx, h⟩
      if truthyDocIds doc_ids = true ∧ m.doc_id ∉ doc_ids.getD [] then
        collectResults metadata doc_ids top_k rest acc
      else
        let acc' := acc ++ [(m, 1 / (1 + dist))]
        if acc'.length ≥ top_k then acc'
        else collectResults metadata doc_ids top_k rest acc'
    else collectResults metadata doc_ids top_k rest acc

/-- `VectorStore.search`. -/
def search (vs : VectorStore) (q : List ℚ) (top_k : Nat)
    (doc_ids : Option (List String)) : List (ChunkMetadata × ℚ) :=
  if vs.vectors.length = 0 then []
  else
    let search_k := if truthyDocIds doc_ids = true then top_k * 10 else top_k
    let cand := (faissRank vs q).take (min search_k vs.vectors.length)
    collectResults vs.metadata doc_ids top_k cand []

/-- `VectorStore.get_chunks_by_doc_id`. -/
def get_chunks_by_doc_id (vs : VectorStore) (doc_id : String) :
    List ChunkMetadata :=
  vs.metadata.filter (fun m => m.doc_id = doc_id)

/-- `index.ntotal`, reported as `total_chunks` by `get_stats`. -/
def total_chunks (vs : VectorStore) : Nat := vs.vectors.length

/-- `VectorStore.delete_document`: keep the ordinals whose metadata
carries a different `doc_id`; if everything is kept the call is a no-op,
otherwise rebuild the index from the reconstructed retained rows and the
retained metadata, in original relative order. -/
def delete_document (vs : VectorStore) (doc_id : String) : VectorStore :=
  let indices_to_keep :=
    (vs.metadata.enum.filter (fun p => ¬ p.2.doc_id = doc_id)).map Prod.fst
  if indices_to_keep.length = vs.metadata.length then vs
  else
    { vs with
      vectors := indices_to_keep.filterMap (fun i => vs.vectors[i]?),
      metadata := indices_to_keep.filterMap (fun i => vs.metadata[i]?) }

/-! ## Concrete sample data for the witnesses -/

/-- A sample chunk record. -/
def sampleChunk (doc : String) (i : Nat) : ChunkMetadata :=
  ⟨mkChunkId doc i, doc, "policy", "f.pdf", none, i, "sample text"⟩

/-- A sample aligned three-row store over dimension 2. -/
def sampleStore : VectorStore :=
  ⟨2, [[1, 0], [0, 1], [1, 1]],
    [sampleChunk "a" 0, sampleChunk "b" 0, sampleChunk "a" 1]⟩

/-! ## RAG engine (`backend/rag_engine.py`, `backend/main.py`)

The embedding provider, the generative backend and Python's `re.search`
are external collaborators; they are passed in as oracle functions, and
the theorems hold for every instantiation.  `reSearch pattern text`
returns the first capture group of the first match, if any. -/

/-- Python ASCII `str.lower()`. -/
def pyLower (s : String) : String := String.mk (s.data.map Char.toLower)

/-- Python slicing `s[:n]`. -/
def pyTake (n : Nat) (s : String) : String := String.mk (s.data.take n)

/-- Token-level `startswith`. -/
def startsWithTok : List Char → List Char → Bool
  | [], _ => true
  | _ :: _, [] => false
  | a :: as, b :: bs => a = b && startsWithTok as bs

/-- Python substring containment `needle in hay`, token level. -/
def containsTok (needle : List Char) : List Char → Bool
  | [] => needle.isEmpty
  | c :: rest => startsWithTok needle (c :: rest) || containsTok needle rest

/-- Python `needle in hay` on strings. -/
def pyContains (needle hay : String) : Bool := containsTok needle.data hay.data

/-- Python `sep.join(parts)`. -/
def pyJoinWith (sep : String) : List String → String
  | [] => ""
  | [x] => x
  | x :: y :: rest => x ++ sep ++ pyJoinWith sep (y :: rest)

/-- `models.SourceChunk`. -/
structure SourceChunk where
  text : String
  doc_id : String
  filename : String
  doc_type : String
  page_number : Option Nat
  similarity_score : ℚ

/-- `models.QueryResponse`. -/
structure QueryResponse where
  question : String
  answer : String
  sources : List SourceChunk
  confidence : ℚ

/-- The context block of `RAGEngine.query` step 3: each chunk text tagged
with a 1-based source index, joined by blank lines. -/
def buildContext (texts : List String) : String :=
  pyJoinWith "\n\n" (texts.enum.map
    (fun p => "[Source " ++ toString (p.1 + 1) ++ "]: " ++ p.2))

/-- `RAGEngine._create_prompt`. -/
def createPrompt (question context : String) : String :=
  "You are an AI assistant helping with insurance claim analysis. " ++
  "Answer the question based ONLY on the provided context from insurance documents.\n\n" ++
  "Context from documents:\n" ++ context ++ "\n\n" ++
  "Question: " ++ question ++ "\n\n" ++
  "Instructions:\n" ++
  "1. Answer based ONLY on the information in the context above\n" ++
  "2. If the context doesn't contain enough information, say so clearly\n" ++
  "3. Be specific and cite relevant details from the documents\n" ++
  "4. Keep your answer concise and factual\n" ++
  "5. If mentioning amounts, dates, or policy numbers, quote them exactly as they appear\n\n" ++
  "Answer:"

/-- The `summarize`/`summary` branch of
`RAGEngine._generate_fallback_answer`: assemble the parts that match,
answer only when at least one does. -/
def summaryAnswer (reSearch : String → String → Option String)
    (context : String) : Option String :=
  let summary_parts :=
    ((reSearch "Policy\\s*(?:No|Number)?[:\\s]*([A-Z0-9\\-/]+)" context).map
      (fun g => "Policy Number: " ++ g)).toList ++
    ((reSearch "(?:Claim\\s*Amount|TOTAL)[:\\s]*₹?\\s*([\\d,]+)" context).map
      (fun g => "Claim Amount: ₹" ++ g)).toList ++
    ((reSearch "Hospital[:\\s]*([A-Z][a-zA-Z\\s&]+Hospital)" context).map
      (fun g => "Hospital: " ++ pyStrip g)).toList
  if summary_parts ≠ [] then
    some ("Based on the documents, here's a summary:\n"
      ++ pyJoinWith "\n" summary_parts)
  else none

/-- The keyword-dispatched extraction of
`RAGEngine._generate_fallback_answer`: `some answer` when a keyword branch
fires and extracts, `none` when control falls through to the final
context-preview return. -/
def fallbackExtract (reSearch : String → String → Option String)
    (question_lower context : String) : Option String :=
  if pyContains "policy number" question_lower then
    (match reSearch "Policy\\s*(?:No|Number|#)?[:\\s]+([A-Z]\x7b3\x7d-\\d\x7b4\x7d-[A-Z]\x7b2\x7d-\\d\x7b6\x7d)" context with
      | some g => some g
      | none =>
        reSearch "Policy\\s*(?:No|Number|#)?[:\\s]+([A-Z0-9\\-/]\x7b10,\x7d)" context).map
      (fun g => "Based on the documents, the policy number is " ++ g ++ ".")
  else if pyContains "claim amount" question_lower
      || (pyContains "claim" question_lower
        && pyContains "amount" question_lower) then
    (reSearch "(?:Claim\\s*Amount|Total\\s*Claim|TOTAL\\s*PAYABLE)[:\\s]*₹?\\s*([\\d,]+(?:\\.\\d\x7b2\x7d)?)" context).map
      (fun g => "Based on the documents, the claim amount is ₹" ++ g ++ ".")
  else if pyContains "hospital" question_lower then
    (reSearch "Hospital\\s*(?:Name)?[:\\s]*([A-Z][a-zA-Z\\s&]+(?:Hospital|Medical|Clinic))" context).map
      (fun g => "Based on the documents, the hospital mentioned is "
        ++ pyStrip g ++ ".")
  else if pyContains "diagnosis" question_lower then
    (reSearch "Diagnosis[:\\s]*([A-Z][a-zA-Z\\s]+)" context).map
      (fun g => "Based on the documents, the diagnosis is "
        ++ pyStrip g ++ ".")
  else if pyContains "sum assured" question_lower
      || pyContains "coverage" question_lower then
    (reSearch "Sum\\s*Assured[:\\s]*₹?\\s*([\\d,]+)" context).map
      (fun g => "Based on the documents, the sum assured is ₹" ++ g ++ ".")
  else if pyContains "patient" question_lower
      || pyContains "name" question_lower then
    (reSearch "Patient\\s*Name[:\\s]*([A-Z][a-z]+(?:\\s+[A-Z][a-z]+)+)" context).map
      (fun g => "Based on the documents, the patient name is "
        ++ pyStrip g ++ ".")
  else if pyContains "summarize" question_lower
      || pyContains "summary" question_lower then
    summaryAnswer reSearch context
  else none

/-- `RAGEngine._generate_fallback_answer`: keyword extraction, else the
~500-character context preview annotated as degraded. -/
def generateFallbackAnswer (reSearch : String → String → Option String)
    (question context : String) : String :=
  match fallbackExtract reSearch (pyLower question) context with
  | some a => a
  | none =>
    "Based on the retrieved documents: " ++ pyTake 500 context ++
    "...\n\n(Note: LLM is currently unavailable. This is a basic extraction from the documents. For better answers, please configure OpenAI API key or ensure Ollama is running with llama2 model loaded.)"

/-- `RAGEngine._generate_answer`: the generative backend's reply if it
succeeds, the deterministic fallback on any backend exception. -/
def generateAnswer (llm : String → Except String String)
    (reSearch : String → String → Option String)
    (question context : String) : String :=
  match llm (createPrompt question context) with
  | Except.ok a => a
  | Except.error _ => generateFallbackAnswer reSearch question context

/-- `RAGEngine.query`. -/
def ragQuery (embed : String → List ℚ)
    (llm : String → Except String String)
    (reSearch : String → String → Option String)
    (vs : VectorStore) (question : String)
    (doc_ids : Option (List String)) (top_k : Nat) : QueryResponse :=
  let question_embedding := embed question
  let search_results := search vs question_embedding top_k doc_ids
  if search_results.isEmpty then
    ⟨question,
     "I don't have enough information to answer this question. Please upload relevant documents first.",
     [], 0⟩
  else
    let sources := search_results.map (fun p =>
      SourceChunk.mk p.1.text p.1.doc_id p.1.filename p.1.doc_type
        p.1.page_number p.2)
    let context := buildContext (search_results.map (fun p => p.1.text))
    let answer := generateAnswer llm reSearch question context
    let avg := (sources.map (fun s => s.similarity_score)).sum / sources.length
    ⟨question, answer, sources, min (avg * (6 / 5)) 1⟩

/-- The `/api/query` endpoint `query_documents` of `backend/main.py`:
blank questions are rejected with HTTP 400 before the engine (and hence
the embedding provider) is invoked. -/
def query_documents (embed : String → List ℚ)
    (llm : String → Except String String)
    (reSearch : String → String → Option String)
    (vs : VectorStore) (question : String)
    (doc_ids : Option (List String)) (top_k : Nat) :
    Except Nat QueryResponse :=
  if pyStrip question = "" then Except.error 400
  else Except.ok (ragQuery embed llm reSearch vs question doc_ids top_k)

/-! ## Theorems -/

theorem pyTokensF_congr : ∀ (f g : Nat) (l : List Char),
    l.length ≤ f → l.length ≤ g → pyTokensF f l = pyTokensF g l := by
  intro f
  induction f with
  | zero =>
    intro g l hf _
    have : l = [] := List.eq_nil_of_length_eq_zero (Nat.le_zero.mp hf)
    subst this
    cases g <;> rfl
  | succ f ih =>
    intro g l hf hg
    cases g with
    | zero =>
      have : l = [] := List.eq_nil_of_length_eq_zero (Nat.le_zero.mp hg)
      subst this; rfl
    | succ g =>
      cases l with
      | nil => rfl
      | cons c cs =>
        simp only [List.length_cons, Nat.add_le_add_iff_right] at hf hg
        have hdw : (cs.dropWhile (fun d => !(isWs d))).length ≤ cs.length :=
          (List.dropWhile_sublist _).length_le
        simp only [pyTokensF]
        by_cases h : isWs c
        · simp only [h, if_true]
          exact ih g cs hf hg
        · simp only [h, if_false]
          exact congrArg (List.cons _)
            (ih g _ (Nat.le_trans hdw hf) (Nat.le_trans hdw hg))

theorem pyTokens_nil : pyTokens [] = [] := rfl

theorem pyTokens_cons_ws {c : Char} (cs : List Char) (h : isWs c = true) :
    pyTokens (c :: cs) = pyTokens cs := by
  simp only [pyTokens, List.length_cons, pyTokensF, h, if_true]

theorem pyTokens_cons_not_ws {c : Char} (cs : List Char) (h : ¬ isWs c = true) :
    pyTokens (c :: cs) = (c :: cs.takeWhile (fun d => !(isWs d))) ::
      pyTokens (cs.dropWhile (fun d => !(isWs d))) := by
  simp only [pyTokens, List.length_cons, pyTokensF, h, if_false]
  refine congrArg (List.cons _) (pyTokensF_congr _ _ _ ?_ (Nat.le_refl _))
  have hdw : (cs.dropWhile (fun d => !(isWs d))).length ≤ cs.length :=
    (List.dropWhile_sublist _).length_le
  omega

/-! ## Chunker lemmas -/

/-- Either a loop iteration leaves the emitted chunks and the running index
alone, or it emits exactly the accumulated group (which then meets the
word-count floor) and bumps the index. -/
theorem chunkStep_cases (tc : TextChunker) (d f t : String) (pn : Option Nat)
    (st : ChunkState) (s : String) :
    ((chunkStep tc d f t pn st s).chunks = st.chunks ∧
      (chunkStep tc d f t pn st s).chunk_index = st.chunk_index) ∨
    (tc.min_chunk_size ≤ (pyWords (joinSp st.current_chunk)).length ∧
      st.current_chunk ≠ [] ∧
      (chunkStep tc d f t pn st s).chunks = st.chunks ++
        [⟨mkChunkId d st.chunk_index, d, t, f, pn, st.chunk_index,
          joinSp st.current_chunk⟩] ∧
      (chunkStep tc d f t pn st s).chunk_index = st.chunk_index + 1) := by
  by_cases hcond :
      st.current_word_count + (pyWords s).length > tc.chunk_size ∧
        st.current_chunk ≠ []
  · by_cases hm :
        (pyWords (joinSp st.current_chunk)).length ≥ tc.min_chunk_size
    · right
      refine ⟨hm, hcond.2, ?_, ?_⟩ <;>
      · simp only [chunkStep, if_pos hcond, if_pos hm]
        by_cases hov : tc.chunk_overlap > 0 ∧ st.current_chunk.length > 0 <;>
          simp [hov]
    · left
      constructor <;>
      · simp only [chunkStep, if_pos hcond, if_neg hm]
        by_cases hov : tc.chunk_overlap > 0 ∧ st.current_chunk.length > 0 <;>
          simp [hov]
  · left
    constructor <;> simp [chunkStep, if_neg hcond]

/-- Any property satisfied by every freshly emitted chunk propagates through
the whole sentence loop. -/
theorem chunks_all_foldl (tc : TextChunker) (d f t : String) (pn : Option Nat)
    (P : ChunkMetadata → Prop)
    (hP : ∀ idx cur, cur ≠ [] →
      tc.min_chunk_size ≤ (pyWords (joinSp cur)).length →
      P ⟨mkChunkId d idx, d, t, f, pn, idx, joinSp cur⟩) :
    ∀ (l : List String) (st : ChunkState), (∀ c ∈ st.chunks, P c) →
      ∀ c ∈ (l.foldl (chunkStep tc d f t pn) st).chunks, P c := by
  intro l
  induction l with
  | nil => exact fun st h c hc => h c hc
  | cons s rest ih =>
    intro st h
    simp only [List.foldl_cons]
    apply ih
    intro c hc
    rcases chunkStep_cases tc d f t pn st s with ⟨he, _⟩ | ⟨hmin, hne, he, _⟩
    · rw [he] at hc; exact h c hc
    · rw [he] at hc
      rcases List.mem_append.mp hc with h1 | h1
      · exact h c h1
      · have := List.mem_singleton.mp h1
        subst this
        exact hP _ _ hne hmin

/-- Any property satisfied by every freshly emitted chunk holds for every
chunk returned by `_chunk_text`. -/
theorem chunkText_all (tc : TextChunker) (text d f t : String)
    (pn : Option Nat) (P : ChunkMetadata → Prop)
    (hP : ∀ idx cur, cur ≠ [] →
      tc.min_chunk_size ≤ (pyWords (joinSp cur)).length →
      P ⟨mkChunkId d idx, d, t, f, pn, idx, joinSp cur⟩) :
    ∀ c ∈ chunkText tc text d f t pn, P c := by
  intro c hc
  unfold chunkText at hc
  set st := (splitIntoSentences text).foldl (chunkStep tc d f t pn)
    ⟨[], [], 0, 0⟩ with hst
  have hfold : ∀ c ∈ st.chunks, P c := by
    rw [hst]
    exact chunks_all_foldl tc d f t pn P hP (splitIntoSentences text)
      ⟨[], [], 0, 0⟩ (by intro c hc; simp at hc)
  by_cases h1 : st.current_chunk ≠ []
  · simp only [if_pos h1] at hc
    by_cases h2 : tc.min_chunk_size ≤ (pyWords (joinSp st.current_chunk)).length
    · rw [if_pos h2] at hc
      rcases List.mem_append.mp hc with h3 | h3
      · exact hfold c h3
      · have := List.mem_singleton.mp h3
        subst this
        exact hP _ _ h1 h2
    · rw [if_neg h2] at hc
      exact hfold c hc
  · simp only [if_neg h1] at hc
    exact hfold c hc

/-- C2 core fact, lifted through `chunk_document`. -/
theorem chunk_document_all (tc : TextChunker) (text d f t : String)
    (pages : Option (List PageInfo)) (P : ChunkMetadata → Prop)
    (hP : ∀ (idx : Nat) (cur : List String) (pn : Option Nat), cur ≠ [] →
      tc.min_chunk_size ≤ (pyWords (joinSp cur)).length →
      P ⟨mkChunkId d idx, d, t, f, pn, idx, joinSp cur⟩) :
    ∀ c ∈ chunk_document tc text d f t pages, P c := by
  intro c hc
  rcases pages with _ | ps
  · simp only [chunk_document] at hc
    exact chunkText_all tc text d f t none P (hP · · none) c hc
  · simp only [chunk_document] at hc
    by_cases hps : ps.isEmpty
    · rw [if_pos hps] at hc
      exact chunkText_all tc text d f t none P (hP · · none) c hc
    · rw [if_neg hps] at hc
      rcases List.mem_flatten.mp hc with ⟨sub, hsub, hcsub⟩
      rcases List.mem_map.mp hsub with ⟨p, _, rfl⟩
      exact chunkText_all tc p.text d f t (some p.page_number) P
        (hP · · (some p.page_number)) c hcsub

/-- Through the sentence loop, the emitted `chunk_index` values are exactly
`0, 1, …, chunk_index - 1`. -/
theorem chunks_index_foldl (tc : TextChunker) (d f t : String)
    (pn : Option Nat) :
    ∀ (l : List String) (st : ChunkState),
      st.chunks.map (·.chunk_index) = List.range st.chunk_index →
      (l.foldl (chunkStep tc d f t pn) st).chunks.map (·.chunk_index)
        = List.range (l.foldl (chunkStep tc d f t pn) st).chunk_index := by
  intro l
  induction l with
  | nil => exact fun st h => h
  | cons s rest ih =>
    intro st h
    simp only [List.foldl_cons]
    apply ih
    rcases chunkStep_cases tc d f t pn st s with ⟨hc, hi⟩ | ⟨_, _, hc, hi⟩
    · rw [hc, hi]; exact h
    · rw [hc, hi, List.map_append, h, List.range_succ]; rfl

/-- The `chunk_index` values of one `_chunk_text` call are exactly
`0, 1, …, n-1` in emission order: zero-based, gap-free, strictly
increasing, unique within the call. -/
theorem chunkText_index_range (tc : TextChunker) (text d f t : String)
    (pn : Option Nat) :
    (chunkText tc text d f t pn).map (·.chunk_index)
      = List.range (chunkText tc text d f t pn).length := by
  unfold chunkText
  set st := (splitIntoSentences text).foldl (chunkStep tc d f t pn)
    ⟨[], [], 0, 0⟩ with hst
  have h : st.chunks.map (·.chunk_index) = List.range st.chunk_index := by
    rw [hst]
    exact chunks_index_foldl tc d f t pn (splitIntoSentences text)
      ⟨[], [], 0, 0⟩ (by simp)
  have hlen : st.chunks.length = st.chunk_index := by
    have h2 := congrArg List.length h
    simpa using h2
  by_cases h1 : st.current_chunk ≠ []
  · simp only [if_pos h1]
    by_cases h2 : tc.min_chunk_size ≤ (pyWords (joinSp st.current_chunk)).length
    · rw [if_pos h2, List.map_append, h, List.length_append, hlen]
      simp [← hst, List.range_succ]
    · rw [if_neg h2, h, hlen]
  · simp only [if_neg h1]
    rw [h, hlen]

/-- C1 counterexample: a two-page call where both pages produce one chunk.
Both emitted chunks carry `chunk_id = "d_chunk_0"` and `chunk_index = 0`,
so `chunk_id` suffixes are not globally unique across the call and
`chunk_index` values are not unique within the `doc_id`. -/
theorem chunk_id_collision_across_pages :
    (chunk_document ⟨5, 0, 1⟩ "" "d" "f" "t"
        (some [⟨1, "a b"⟩, ⟨2, "c d"⟩])).map
        (fun c => (c.chunk_id, c.chunk_index))
      = [("d_chunk_0", 0), ("d_chunk_0", 0)] := by decide

/-- C1 (amended): for a call with a non-empty `pages` list, the running
chunk counter restarts at `0` on every page, so within each page the
`chunk_index` values are exactly `0, 1, …` (unique and strictly increasing
in emission order, per page, not across the whole call), and every emitted
chunk's `chunk_id` equals `"{doc_id}_chunk_{chunk_index}"` built from its
per-page `chunk_index`; across pages these ids can therefore repeat. -/
theorem chunk_document_pages_per_page_ids (tc : TextChunker)
    (text d f t : String) (ps : List PageInfo) (hps : ps ≠ []) :
    (∀ p ∈ ps,
      (chunkText tc p.text d f t (some p.page_number)).map (·.chunk_index)
        = List.range (chunkText tc p.text d f t (some p.page_number)).length) ∧
    (∀ c ∈ chunk_document tc text d f t (some ps),
      c.chunk_id = mkChunkId d c.chunk_index ∧ c.doc_id = d) := by
  constructor
  · intro p _
    exact chunkText_index_range tc p.text d f t (some p.page_number)
  · exact chunk_document_all tc text d f t (some ps) _
      (fun idx cur pn hne hmin => ⟨rfl, rfl⟩)

/-- C1 (amended) witness at a concrete two-page input. -/
theorem chunk_document_pages_per_page_ids_witness :
    (([⟨1, "a b"⟩, ⟨2, "c d"⟩] : List PageInfo) ≠ []) ∧
    ((∀ p ∈ ([⟨1, "a b"⟩, ⟨2, "c d"⟩] : List PageInfo),
      (chunkText ⟨5, 0, 1⟩ p.text "d" "f" "t" (some p.page_number)).map
          (·.chunk_index)
        = List.range
            (chunkText ⟨5, 0, 1⟩ p.text "d" "f" "t"
              (some p.page_number)).length) ∧
    (∀ c ∈ chunk_document ⟨5, 0, 1⟩ "" "d" "f" "t"
        (some [⟨1, "a b"⟩, ⟨2, "c d"⟩]),
      c.chunk_id = mkChunkId "d" c.chunk_index ∧ c.doc_id = "d")) :=
  ⟨by decide,
    chunk_document_pages_per_page_ids ⟨5, 0, 1⟩ "" "d" "f" "t"
      [⟨1, "a b"⟩, ⟨2, "c d"⟩] (by decide)⟩

/-- C2: every chunk emitted by `chunk_document`, for any input text, any
page list and any configuration, has word count at least `min_chunk_size`;
sub-floor groups are dropped rather than emitted. -/
theorem chunk_document_min_word_count (tc : TextChunker)
    (text d f t : String) (pages : Option (List PageInfo)) :
    ∀ c ∈ chunk_document tc text d f t pages,
      tc.min_chunk_size ≤ (pyWords c.text).length := by
  exact chunk_document_all tc text d f t pages _
    (fun idx cur pn hne hmin => hmin)

/-- C2 witness: a concrete emitted chunk meets the 5-word floor. -/
theorem chunk_document_min_word_count_witness :
    ((⟨"d_chunk_0", "d", "t", "f", none, 0,
        "Aa bb cc dd ee ff gg hh ii."⟩ : ChunkMetadata)
      ∈ chunk_document ⟨10, 2, 5⟩
          "Aa bb cc dd ee ff gg hh ii. Jj kk. Ll mm nn oo pp qq rr. Ss tt."
          "d" "f" "t" none) ∧
    (5 : Nat) ≤ (pyWords "Aa bb cc dd ee ff gg hh ii.").length :=
  ⟨by decide,
    chunk_document_min_word_count ⟨10, 2, 5⟩
      "Aa bb cc dd ee ff gg hh ii. Jj kk. Ll mm nn oo pp qq rr. Ss tt."
      "d" "f" "t" none
      ⟨"d_chunk_0", "d", "t", "f", none, 0, "Aa bb cc dd ee ff gg hh ii."⟩
      (by decide)⟩

/-! ## Token algebra: `split` / `join` interaction -/

theorem takeWhile_append_of_all {p : α → Bool} :
    ∀ (a b : List α), a.all p → (a ++ b).takeWhile p = a ++ b.takeWhile p := by
  intro a b
  induction a with
  | nil => intro _; rfl
  | cons d a2 ih =>
    intro h
    simp only [List.all_cons, Bool.and_eq_true] at h
    obtain ⟨hd, h2⟩ := h
    simp [List.takeWhile_cons, hd, ih h2]

theorem dropWhile_append_of_all {p : α → Bool} :
    ∀ (a b : List α), a.all p → (a ++ b).dropWhile p = b.dropWhile p := by
  intro a b
  induction a with
  | nil => intro _; rfl
  | cons d a2 ih =>
    intro h
    simp only [List.all_cons, Bool.and_eq_true] at h
    obtain ⟨hd, h2⟩ := h
    simp [List.dropWhile_cons, hd, ih h2]

theorem takeWhile_append_of_not_all {p : α → Bool} :
    ∀ (a b : List α), ¬ a.all p = true →
      (a ++ b).takeWhile p = a.takeWhile p := by
  intro a b
  induction a with
  | nil => intro h; exact absurd rfl h
  | cons d a2 ih =>
    intro h
    by_cases hd : p d
    · have h2 : ¬ a2.all p = true := fun hh =>
        h (by simp [List.all_cons, hd, hh])
      simp [List.takeWhile_cons, hd, ih h2]
    · simp [List.takeWhile_cons, hd]

theorem dropWhile_append_of_not_all {p : α → Bool} :
    ∀ (a b : List α), ¬ a.all p = true →
      (a ++ b).dropWhile p = a.dropWhile p ++ b := by
  intro a b
  induction a with
  | nil => intro h; exact absurd rfl h
  | cons d a2 ih =>
    intro h
    by_cases hd : p d
    · have h2 : ¬ a2.all p = true := fun hh =>
        h (by simp [List.all_cons, hd, hh])
      simp [List.dropWhile_cons, hd, ih h2]
    · simp [List.dropWhile_cons, hd]

/-- Every token produced by `pyTokens` is a non-empty run of
non-whitespace characters. -/
theorem pyTokens_shape :
    ∀ (n : Nat) (l : List Char), l.length ≤ n →
      ∀ tk ∈ pyTokens l, tk ≠ [] ∧ ∀ c ∈ tk, isWs c = false := by
  intro n
  induction n with
  | zero =>
    intro l hl tk htk
    have : l = [] := List.eq_nil_of_length_eq_zero (Nat.le_zero.mp hl)
    subst this
    simp [pyTokens_nil] at htk
  | succ n ih =>
    intro l hl tk htk
    cases l with
    | nil => simp [pyTokens_nil] at htk
    | cons c cs =>
      simp only [List.length_cons, Nat.add_le_add_iff_right] at hl
      by_cases hc : isWs c
      · rw [pyTokens_cons_ws cs hc] at htk
        exact ih cs hl tk htk
      · rw [pyTokens_cons_not_ws cs hc] at htk
        rcases List.mem_cons.mp htk with rfl | htk2
        · refine ⟨by simp, ?_⟩
          intro x hx
          rcases List.mem_cons.mp hx with rfl | hx2
          · exact Bool.eq_false_iff.mpr hc
          · have := List.mem_takeWhile_imp hx2
            simpa using this
        · have hdw : (cs.dropWhile (fun d => !(isWs d))).length ≤ cs.length :=
            (List.dropWhile_sublist _).length_le
          exact ih _ (Nat.le_trans hdw hl) tk htk2

/-- Splitting distributes over an appended whitespace character. -/
theorem pyTokens_append_ws {c : Char} (hc : isWs c = true) :
    ∀ (n : Nat) (a : List Char), a.length ≤ n → ∀ (b : List Char),
      pyTokens (a ++ c :: b) = pyTokens a ++ pyTokens b := by
  intro n
  induction n with
  | zero =>
    intro a ha b
    have : a = [] := List.eq_nil_of_length_eq_zero (Nat.le_zero.mp ha)
    subst this
    rw [List.nil_append, pyTokens_cons_ws b hc, pyTokens_nil, List.nil_append]
  | succ n ih =>
    intro a ha b
    cases a with
    | nil =>
      rw [List.nil_append, pyTokens_cons_ws b hc, pyTokens_nil,
        List.nil_append]
    | cons d a2 =>
      simp only [List.length_cons, Nat.add_le_add_iff_right] at ha
      by_cases hd : isWs d
      · rw [List.cons_append, pyTokens_cons_ws _ hd, pyTokens_cons_ws _ hd,
          ih a2 ha b]
      · rw [List.cons_append, pyTokens_cons_not_ws _ hd,
          pyTokens_cons_not_ws _ hd]
        by_cases hall : (a2.all (fun d => !(isWs d))) = true
        · rw [takeWhile_append_of_all a2 (c :: b) hall,
            dropWhile_append_of_all a2 (c :: b) hall]
          have hcb : (c :: b).takeWhile (fun d => !(isWs d)) = [] := by
            simp [List.takeWhile_cons, hc]
          have hcb2 : (c :: b).dropWhile (fun d => !(isWs d)) = c :: b := by
            simp [List.dropWhile_cons, hc]
          have ha2 : a2.takeWhile (fun d => !(isWs d)) = a2 :=
            List.takeWhile_eq_self_iff.mpr (by
              intro x hx
              simpa using List.all_eq_true.mp hall x hx)
          have ha3 : a2.dropWhile (fun d => !(isWs d)) = [] :=
            List.dropWhile_eq_nil_iff.mpr (by
              intro x hx
              simpa using List.all_eq_true.mp hall x hx)
          rw [hcb, hcb2, ha2, ha3, pyTokens_cons_ws b hc, pyTokens_nil,
            List.append_nil]
          rfl
        · rw [takeWhile_append_of_not_all a2 (c :: b) hall,
            dropWhile_append_of_not_all a2 (c :: b) hall]
          have hdw : (a2.dropWhile (fun d => !(isWs d))).length ≤ a2.length :=
            (List.dropWhile_sublist _).length_le
          rw [ih _ (Nat.le_trans hdw ha) b]
          rfl

/-- Splitting a space-join yields the concatenation of the splits. -/
theorem pyTokens_joinTok :
    ∀ (lls : List (List Char)),
      pyTokens (joinTok lls) = (lls.map pyTokens).flatten := by
  intro lls
  induction lls with
  | nil => rfl
  | cons x tail ih =>
    cases tail with
    | nil => simp [joinTok]
    | cons y rest =>
      rw [show joinTok (x :: y :: rest) = x ++ ' ' :: joinTok (y :: rest)
          from rfl,
        pyTokens_append_ws (by rfl) x.length x (Nat.le_refl _), ih]
      simp

/-- `pyWords` of a `' '.join` is the concatenation of the words of the
parts. -/
theorem pyWords_joinSp (parts : List String) :
    pyWords (joinSp parts) = (parts.map pyWords).flatten := by
  unfold pyWords joinSp
  rw [show (String.mk (joinTok (parts.map String.data))).data
      = joinTok (parts.map String.data) from rfl,
    pyTokens_joinTok, List.map_flatten, List.map_map, List.map_map]
  rfl

/-- A word of a `pyWords` result: non-empty, all non-whitespace. -/
theorem pyWords_shape (s : String) :
    ∀ w ∈ pyWords s, w.data ≠ [] ∧ ∀ c ∈ w.data, isWs c = false := by
  intro w hw
  rcases List.mem_map.mp hw with ⟨tk, htk, rfl⟩
  have := pyTokens_shape s.data.length s.data (Nat.le_refl _) tk htk
  exact this

/-- Joining a list of clean words (non-empty, whitespace-free) and
splitting again is the identity. -/
theorem pyWords_joinSp_of_clean (ws : List String)
    (h : ∀ w ∈ ws, w.data ≠ [] ∧ ∀ c ∈ w.data, isWs c = false) :
    pyWords (joinSp ws) = ws := by
  rw [pyWords_joinSp]
  induction ws with
  | nil => rfl
  | cons w tail ih =>
    have hw := h w (List.mem_cons_self _ _)
    have hwt : pyWords w = [w] := by
      unfold pyWords
      cases hd : w.data with
      | nil => exact absurd hd hw.1
      | cons c cs =>
        have hc : ¬ isWs c = true := by
          have := hw.2 c (by rw [hd]; exact List.mem_cons_self _ _)
          simp [this]
        rw [pyTokens_cons_not_ws cs hc]
        have hcs : cs.takeWhile (fun d => !(isWs d)) = cs :=
          List.takeWhile_eq_self_iff.mpr (by
            intro x hx
            have := hw.2 x (by rw [hd]; exact List.mem_cons_of_mem _ hx)
            simp [this])
        have hcs2 : cs.dropWhile (fun d => !(isWs d)) = [] :=
          List.dropWhile_eq_nil_iff.mpr (by
            intro x hx
            have := hw.2 x (by rw [hd]; exact List.mem_cons_of_mem _ hx)
            simp [this])
        rw [hcs, hcs2, pyTokens_nil, ← hd]
        rfl
    simp only [List.map_cons, List.flatten_cons, hwt]
    rw [ih (fun w hw => h w (List.mem_cons_of_mem _ hw))]
    rfl

/-! ## C3: the word-overlap chain -/

theorem pyWords_joinSp_concat (xs : List String) (s : String) :
    pyWords (joinSp (xs ++ [s])) = pyWords (joinSp xs) ++ pyWords s := by
  rw [pyWords_joinSp, pyWords_joinSp, List.map_append, List.flatten_append]
  simp

theorem pyWords_joinSp_pair (a b : String) :
    pyWords (joinSp [a, b]) = pyWords a ++ pyWords b := by
  rw [pyWords_joinSp]
  simp

theorem pyWords_joinSp_lastSlice (k : Nat) (s : String) :
    pyWords (joinSp (lastSlice k (pyWords s))) = lastSlice k (pyWords s) := by
  apply pyWords_joinSp_of_clean
  intro w hw
  exact pyWords_shape s w (List.mem_of_mem_drop hw)

theorem OverlapInv_step (tc : TextChunker) (d f t : String) (pn : Option Nat)
    (hmin : tc.min_chunk_size = 0) (hk : 0 < tc.chunk_overlap)
    (st : ChunkState) (s : String) (h : OverlapInv tc.chunk_overlap st) :
    OverlapInv tc.chunk_overlap (chunkStep tc d f t pn st s) := by
  obtain ⟨hchain, hemp, hseed⟩ := h
  by_cases hcond :
      st.current_word_count + (pyWords s).length > tc.chunk_size ∧
        st.current_chunk ≠ []
  · have hm : (pyWords (joinSp st.current_chunk)).length
        ≥ tc.min_chunk_size := by
      rw [hmin]; exact Nat.zero_le _
    have hov : tc.chunk_overlap > 0 ∧ st.current_chunk.length > 0 :=
      ⟨hk, List.length_pos.mpr hcond.2⟩
    simp only [chunkStep, if_pos hcond, if_pos hm, if_pos hov]
    refine ⟨?_, ?_, ?_⟩
    · rw [List.chain'_append]
      refine ⟨hchain, List.chain'_singleton _, ?_⟩
      intro x hx y hy
      simp only [List.head?_cons, Option.mem_def, Option.some.injEq] at hy
      subst hy
      exact hseed x (Option.mem_def.mp hx)
    · intro habs
      simp at habs
    · intro a ha
      simp only [List.getLast?_concat] at ha
      injection ha with ha
      subst ha
      refine ⟨pyWords s, ?_⟩
      rw [pyWords_joinSp_pair, pyWords_joinSp_lastSlice]
  · simp only [chunkStep, if_neg hcond]
    refine ⟨hchain, ?_, ?_⟩
    · intro habs
      simp at habs
    · intro a ha
      by_cases hcur : st.current_chunk = []
      · rw [hemp hcur] at ha
        simp at ha
      · obtain ⟨rest, hr⟩ := hseed a ha
        exact ⟨rest ++ pyWords s,
          by rw [pyWords_joinSp_concat, hr, List.append_assoc]⟩

theorem OverlapInv_foldl (tc : TextChunker) (d f t : String)
    (pn : Option Nat) (hmin : tc.min_chunk_size = 0)
    (hk : 0 < tc.chunk_overlap) :
    ∀ (l : List String) (st : ChunkState), OverlapInv tc.chunk_overlap st →
      OverlapInv tc.chunk_overlap (l.foldl (chunkStep tc d f t pn) st) := by
  intro l
  induction l with
  | nil => exact fun st h => h
  | cons s rest ih =>
    intro st h
    simp only [List.foldl_cons]
    exact ih _ (OverlapInv_step tc d f t pn hmin hk st s h)

/-- With a zero emission floor, consecutive chunks of one `_chunk_text`
call are chained by the word-overlap seeding. -/
theorem chunkText_overlap_chain (tc : TextChunker) (text d f t : String)
    (pn : Option Nat) (hmin : tc.min_chunk_size = 0)
    (hk : 0 < tc.chunk_overlap) :
    List.Chain' (seedRel tc.chunk_overlap) (chunkText tc text d f t pn) := by
  unfold chunkText
  set st := (splitIntoSentences text).foldl (chunkStep tc d f t pn)
    ⟨[], [], 0, 0⟩ with hst
  have hInv : OverlapInv tc.chunk_overlap st := by
    rw [hst]
    exact OverlapInv_foldl tc d f t pn hmin hk (splitIntoSentences text)
      ⟨[], [], 0, 0⟩ ⟨List.chain'_nil, fun _ => rfl, by simp⟩
  obtain ⟨hchain, hemp, hseed⟩ := hInv
  by_cases h1 : st.current_chunk ≠ []
  · simp only [if_pos h1]
    have hm : tc.min_chunk_size
        ≤ (pyWords (joinSp st.current_chunk)).length := by
      rw [hmin]; exact Nat.zero_le _
    rw [if_pos hm, List.chain'_append]
    refine ⟨hchain, List.chain'_singleton _, ?_⟩
    intro x hx y hy
    simp only [List.head?_cons, Option.mem_def, Option.some.injEq] at hy
    subst hy
    exact hseed x (Option.mem_def.mp hx)
  · simp only [if_neg h1]
    exact hchain

/-- C3 (amended): within one chunking pass (the whole text, or one page),
with `chunk_overlap = k > 0` and `min_chunk_size = 0` (so that no
sentence group is dropped), any two consecutively emitted chunks `i`,
`i+1` with chunk `i` holding at least `k` words satisfy: the last `k`
words of chunk `i`'s text appear verbatim as the first `k` words of chunk
`i+1`'s text.  (When a sub-floor group is dropped in between, chunk `i+1`
is instead seeded from the dropped group.) -/
theorem chunkText_overlap_carry (tc : TextChunker) (text d f t : String)
    (pn : Option Nat) (hmin : tc.min_chunk_size = 0)
    (hk : 0 < tc.chunk_overlap) :
    List.Chain' (fun a b => tc.chunk_overlap ≤ (pyWords a.text).length →
        (pyWords b.text).take tc.chunk_overlap
          = lastSlice tc.chunk_overlap (pyWords a.text))
      (chunkText tc text d f t pn) := by
  apply List.Chain'.imp ?_
    (chunkText_overlap_chain tc text d f t pn hmin hk)
  rintro a b ⟨rest, hr⟩ hlen
  have hL : (lastSlice tc.chunk_overlap (pyWords a.text)).length
      = tc.chunk_overlap := by
    unfold lastSlice
    rw [List.length_drop]
    omega
  rw [hr]
  have h2 := List.take_left (lastSlice tc.chunk_overlap (pyWords a.text)) rest
  rw [hL] at h2
  exact h2

/-- C3 counterexample: with `chunk_size = 10`, `chunk_overlap = 2`,
`min_chunk_size = 5`, the group closed between the two emitted chunks
("Jj kk." plus two overlap words, 4 words) is dropped for being below the
floor, so the second emitted chunk starts with the dropped group's words
"Jj kk." and not with the last two words "hh ii." of the first emitted
chunk. -/
theorem overlap_words_not_carried :
    ((chunk_document ⟨10, 2, 5⟩
        "Aa bb cc dd ee ff gg hh ii. Jj kk. Ll mm nn oo pp qq rr. Ss tt."
        "d" "f" "t" none).map (fun c => c.text)
      = ["Aa bb cc dd ee ff gg hh ii.", "Jj kk. Ll mm nn oo pp qq rr."]) ∧
    lastSlice 2 (pyWords "Aa bb cc dd ee ff gg hh ii.") = ["hh", "ii."] ∧
    (pyWords "Jj kk. Ll mm nn oo pp qq rr.").take 2 = ["Jj", "kk."] := by
  decide

/-- C3 (amended) witness at a concrete configuration and text. -/
theorem chunkText_overlap_carry_witness :
    ((⟨10, 2, 0⟩ : TextChunker).min_chunk_size = 0) ∧
    (0 < (⟨10, 2, 0⟩ : TextChunker).chunk_overlap) ∧
    List.Chain' (fun a b => 2 ≤ (pyWords a.text).length →
        (pyWords b.text).take 2 = lastSlice 2 (pyWords a.text))
      (chunkText ⟨10, 2, 0⟩
        "Aa bb cc dd ee ff gg hh ii. Jj kk. Ll mm nn oo pp qq rr. Ss tt."
        "d" "f" "t" none) :=
  ⟨rfl, by decide,
    chunkText_overlap_carry ⟨10, 2, 0⟩
      "Aa bb cc dd ee ff gg hh ii. Jj kk. Ll mm nn oo pp qq rr. Ss tt."
      "d" "f" "t" none rfl (by decide)⟩

/-- C4: `add_embeddings` raises a dimension-mismatch error exactly when
the number of rows differs from the number of chunks or some row's width
differs from the configured embedding dimension, and whenever it raises
the store (index rows and metadata alike) is left completely unchanged. -/
theorem add_embeddings_error_iff (vs : VectorStore)
    (embeddings : List (List ℚ)) (chunks : List ChunkMetadata) :
    ((add_embeddings vs embeddings chunks).2.isSome = true ↔
      (embeddings.length ≠ chunks.length ∨
        ¬ embeddings.all (fun e => e.length = vs.embedding_dim) = true)) ∧
    ((add_embeddings vs embeddings chunks).1 = vs ∨
      (add_embeddings vs embeddings chunks).2 = none) := by
  unfold add_embeddings
  by_cases h1 : embeddings.length ≠ chunks.length
  · simp [h1]
  · by_cases h2 : embeddings.all (fun e => e.length = vs.embedding_dim) = true
    · simp [h1, h2]
    · simp [h1, h2]

/-! ## Delete-by-rebuild (C5) -/

/-- Looking the retained ordinals up in a parallel list (of the same
length, shifted by a `front` of length `k`) is the same as filtering the
zipped lists. -/
theorem select_enumFrom_filter {α β : Type} (q : α → Bool) :
    ∀ (l : List α) (m : List β) (k : Nat) (front : List β),
      front.length = k → m.length = l.length →
      (((List.enumFrom k l).filter (fun p => q p.2)).map Prod.fst).filterMap
        (fun i => (front ++ m)[i]?)
      = ((m.zip l).filter (fun p => q p.2)).map Prod.fst := by
  intro l
  induction l with
  | nil =>
    intro m k front _ hm
    have : m = [] := List.eq_nil_of_length_eq_zero (by rw [hm]; rfl)
    subst this
    rfl
  | cons a l2 ih =>
    intro m k front hf hm
    cases m with
    | nil => simp at hm
    | cons b m2 =>
      simp only [List.length_cons, Nat.add_right_cancel_iff] at hm
      rw [List.enumFrom_cons, List.zip_cons_cons]
      have hfront : front ++ b :: m2 = (front ++ [b]) ++ m2 := by simp
      have hfront_len : (front ++ [b]).length = k + 1 := by
        simp [hf]
      by_cases hq : q a
      · rw [List.filter_cons_of_pos (by simpa using hq),
          List.filter_cons_of_pos (by simpa using hq)]
        simp only [List.map_cons, List.filterMap_cons]
        have hk : (front ++ b :: m2)[k]? = some b := by
          rw [List.getElem?_append_right (by omega)]
          simp [hf]
        rw [hk]
        simp only [List.map_cons]
        rw [hfront, ih m2 (k + 1) (front ++ [b]) hfront_len hm]
      · rw [List.filter_cons_of_neg (by simpa using hq),
          List.filter_cons_of_neg (by simpa using hq)]
        rw [hfront, ih m2 (k + 1) (front ++ [b]) hfront_len hm]

theorem zip_self_filter_snd {α : Type} (q : α → Bool) (l : List α) :
    ((l.zip l).filter (fun p => q p.2)).map Prod.fst = l.filter q := by
  induction l with
  | nil => rfl
  | cons a l2 ih =>
    rw [List.zip_cons_cons]
    by_cases hq : q a
    · rw [List.filter_cons_of_pos (by simpa using hq),
        List.filter_cons_of_pos hq, List.map_cons, ih]
    · rw [List.filter_cons_of_neg (by simpa using hq),
        List.filter_cons_of_neg hq, ih]

theorem zip_filter_snd_length {α β : Type} (q : β → Bool) :
    ∀ (l1 : List α) (l2 : List β), l1.length = l2.length →
      ((l1.zip l2).filter (fun p => q p.2)).length = (l2.filter q).length := by
  intro l1
  induction l1 with
  | nil =>
    intro l2 h
    have : l2 = [] := List.eq_nil_of_length_eq_zero (by rw [← h]; rfl)
    subst this
    rfl
  | cons a l1t ih =>
    intro l2 h
    cases l2 with
    | nil => simp at h
    | cons b l2t =>
      simp only [List.length_cons, Nat.add_right_cancel_iff] at h
      rw [List.zip_cons_cons]
      by_cases hq : q b
      · rw [List.filter_cons_of_pos (by simpa using hq),
          List.filter_cons_of_pos hq]
        simp [ih l2t h]
      · rw [List.filter_cons_of_neg (by simpa using hq),
          List.filter_cons_of_neg hq, ih l2t h]

theorem filter_doc_length (doc_id : String) (l : List ChunkMetadata) :
    (l.filter (fun m => ¬ m.doc_id = doc_id)).length
      + (l.filter (fun m => m.doc_id = doc_id)).length = l.length := by
  induction l with
  | nil => rfl
  | cons a t ih =>
    by_cases h : a.doc_id = doc_id
    · rw [List.filter_cons_of_neg (by simpa using h),
        List.filter_cons_of_pos (by simpa using h)]
      simp only [List.length_cons]
      omega
    · rw [List.filter_cons_of_pos (by simpa using h),
        List.filter_cons_of_neg (by simpa using h)]
      simp only [List.length_cons]
      omega

theorem snd_mem_of_mem_enum {α : Type} {l : List α} {p : Nat × α}
    (h : p ∈ l.enum) : p.2 ∈ l := by
  have h2 : p.2 ∈ l.enum.map Prod.snd := List.mem_map_of_mem Prod.snd h
  rwa [List.enum_map_snd] at h2

/-- The two components of `delete_document`'s rebuilt state. -/
theorem delete_document_eq (vs : VectorStore) (doc_id : String)
    (halign : vs.vectors.length = vs.metadata.length) :
    (delete_document vs doc_id).metadata
      = vs.metadata.filter (fun m => ¬ m.doc_id = doc_id) ∧
    (delete_document vs doc_id).vectors
      = ((vs.vectors.zip vs.metadata).filter
          (fun p => ¬ p.2.doc_id = doc_id)).map Prod.fst := by
  unfold delete_document
  by_cases hb : ((vs.metadata.enum.filter
      (fun p => ¬ p.2.doc_id = doc_id)).map Prod.fst).length
      = vs.metadata.length
  · rw [if_pos hb]
    have hall : ∀ p ∈ vs.metadata.enum, (¬ p.2.doc_id = doc_id : Bool) := by
      apply List.filter_length_eq_length.mp
      rw [List.length_map] at hb
      rw [hb]
      exact List.enum_length.symm
    constructor
    · symm
      apply List.filter_eq_self.mpr
      intro m hm
      have : m ∈ vs.metadata.enum.map Prod.snd := by
        rw [List.enum_map_snd]; exact hm
      rcases List.mem_map.mp this with ⟨p, hp, rfl⟩
      exact hall p hp
    · symm
      have hfe : (vs.vectors.zip vs.metadata).filter
          (fun p => ¬ p.2.doc_id = doc_id) = vs.vectors.zip vs.metadata := by
        apply List.filter_eq_self.mpr
        intro p hp
        have hm2 : p.2 ∈ vs.metadata := (List.of_mem_zip hp).2
        have : p.2 ∈ vs.metadata.enum.map Prod.snd := by
          rw [List.enum_map_snd]; exact hm2
        rcases List.mem_map.mp this with ⟨pp, hpp, he⟩
        have := hall pp hpp
        rw [he] at this
        exact this
      rw [hfe]
      exact List.map_fst_zip vs.vectors vs.metadata (le_of_eq halign)
  · rw [if_neg hb]
    constructor
    · have h := select_enumFrom_filter (fun m => ¬ m.doc_id = doc_id)
        vs.metadata vs.metadata 0 [] rfl rfl
      simp only [List.nil_append] at h
      exact h.trans
        (zip_self_filter_snd (fun m => ¬ m.doc_id = doc_id) vs.metadata)
    · have h := select_enumFrom_filter (fun m => ¬ m.doc_id = doc_id)
        vs.metadata vs.vectors 0 [] rfl halign
      simp only [List.nil_append] at h
      exact h

/-- C5: after `delete_document doc_id`, no chunk of that document remains,
`total_chunks` decreases by exactly the number of chunks the document had,
the retained rows keep their original relative order with the metadata
list parallel to the index rows, and a call matching no rows leaves the
store unchanged. -/
theorem delete_document_spec (vs : VectorStore) (doc_id : String)
    (halign : vs.vectors.length = vs.metadata.length) :
    get_chunks_by_doc_id (delete_document vs doc_id) doc_id = [] ∧
    total_chunks (delete_document vs doc_id)
      = total_chunks vs - (get_chunks_by_doc_id vs doc_id).length ∧
    (delete_document vs doc_id).metadata
      = vs.metadata.filter (fun m => ¬ m.doc_id = doc_id) ∧
    (delete_document vs doc_id).vectors
      = ((vs.vectors.zip vs.metadata).filter
          (fun p => ¬ p.2.doc_id = doc_id)).map Prod.fst ∧
    (get_chunks_by_doc_id vs doc_id = [] → delete_document vs doc_id = vs) := by
  obtain ⟨hmeta, hvec⟩ := delete_document_eq vs doc_id halign
  refine ⟨?_, ?_, hmeta, hvec, ?_⟩
  · rw [get_chunks_by_doc_id, hmeta, List.filter_filter]
    apply List.filter_eq_nil_iff.mpr
    intro m _
    simp
  · have h2 : ((vs.vectors.zip vs.metadata).filter
        (fun p => ¬ p.2.doc_id = doc_id)).length
        = (vs.metadata.filter (fun m => ¬ m.doc_id = doc_id)).length :=
      zip_filter_snd_length (fun m => ¬ m.doc_id = doc_id)
        vs.vectors vs.metadata halign
    rw [total_chunks, total_chunks, hvec, List.length_map, h2,
      get_chunks_by_doc_id]
    have h1 := filter_doc_length doc_id vs.metadata
    omega
  · intro hnone
    have hall : ∀ m ∈ vs.metadata, ¬ (m.doc_id = doc_id) := by
      intro m hm
      have := List.filter_eq_nil_iff.mp hnone m hm
      simpa using this
    unfold delete_document
    rw [if_pos ?_]
    have hfe : vs.metadata.enum.filter (fun p => ¬ p.2.doc_id = doc_id)
        = vs.metadata.enum := by
      apply List.filter_eq_self.mpr
      intro p hp
      simpa using hall p.2 (snd_mem_of_mem_enum hp)
    rw [hfe, List.length_map]
    exact List.enum_length

/-! ## Search lemmas (C6, C7, C10) -/

theorem sqDist_nonneg (q v : List ℚ) : 0 ≤ sqDist q v := by
  apply List.sum_nonneg
  intro x hx
  rcases List.mem_map.mp hx with ⟨p, _, rfl⟩
  exact sq_nonneg _

theorem simil_pos {d : ℚ} (hd : 0 ≤ d) : 0 < 1 / (1 + d) := by
  apply one_div_pos.mpr
  linarith

theorem simil_le_one {d : ℚ} (hd : 0 ≤ d) : 1 / (1 + d) ≤ 1 := by
  rw [div_le_one (by linarith)]
  linarith

theorem simil_antitone {d1 d2 : ℚ} (h0 : 0 ≤ d1) (h12 : d1 ≤ d2) :
    1 / (1 + d2) ≤ 1 / (1 + d1) :=
  one_div_le_one_div_of_le (by linarith) (by linarith)

/-- Every ranked pair is a valid ordinal paired with its distance. -/
theorem mem_faissRank (vs : VectorStore) (q : List ℚ) :
    ∀ p ∈ faissRank vs q, ∃ h : p.1 < vs.vectors.length,
      p.2 = sqDist q (vs.vectors.get ⟨p.1, h⟩) := by
  intro p hp
  have hp2 : p ∈ (vs.vectors.map (sqDist q)).enum :=
    (List.mergeSort_perm _ _).mem_iff.mp hp
  rcases p with ⟨i, x⟩
  have := List.mem_enum hp2
  rcases this with ⟨hlt, hx⟩
  rw [List.length_map] at hlt
  refine ⟨hlt, ?_⟩
  rw [hx, List.getElem_map]
  rfl

/-- The ranking is sorted by non-decreasing distance. -/
theorem faissRank_sorted (vs : VectorStore) (q : List ℚ) :
    List.Pairwise (fun a b : Nat × ℚ => a.2 ≤ b.2) (faissRank vs q) := by
  have h : List.Pairwise
      (fun a b : Nat × ℚ => (decide (a.2 ≤ b.2)) = true)
      ((vs.vectors.map (sqDist q)).enum.mergeSort
        (fun a b : Nat × ℚ => a.2 ≤ b.2)) :=
    List.sorted_mergeSort
      (fun a b c hab hbc => by
        simp only [decide_eq_true_eq] at *
        exact le_trans hab hbc)
      (fun a b => by
        simp only [Bool.or_eq_true, decide_eq_true_eq]
        exact le_total _ _)
      (vs.vectors.map (sqDist q)).enum
  exact h.imp (fun hab => by simpa using hab)

/-- Where the collected results come from: the accumulator, or an in-range
ranked pair converted to `(metadata[idx], 1 / (1 + dist))`. -/
theorem collectResults_mem (metadata : List ChunkMetadata)
    (doc_ids : Option (List String)) (top_k : Nat) :
    ∀ (items : List (Nat × ℚ)) (acc : List (ChunkMetadata × ℚ)),
      ∀ r ∈ collectResults metadata doc_ids top_k items acc,
        r ∈ acc ∨ ∃ idx dist, (idx, dist) ∈ items ∧
          ∃ h : idx < metadata.length,
            r = (metadata.get ⟨idx, h⟩, 1 / (1 + dist)) := by
  intro items
  induction items with
  | nil => exact fun acc r hr => Or.inl hr
  | cons it rest ih =>
    rcases it with ⟨idx, dist⟩
    intro acc r hr
    simp only [collectResults] at hr
    by_cases h : idx < metadata.length
    · rw [dif_pos h] at hr
      by_cases hfil : truthyDocIds doc_ids = true ∧
          (metadata.get ⟨idx, h⟩).doc_id ∉ doc_ids.getD []
      · rw [if_pos hfil] at hr
        rcases ih acc r hr with h1 | ⟨i2, d2, hm, hlt, he⟩
        · exact Or.inl h1
        · exact Or.inr ⟨i2, d2, List.mem_cons_of_mem _ hm, hlt, he⟩
      · rw [if_neg hfil] at hr
        by_cases hfull :
            (acc ++ [(metadata.get ⟨idx, h⟩, 1 / (1 + dist))]).length ≥ top_k
        · rw [if_pos hfull] at hr
          rcases List.mem_append.mp hr with h1 | h1
          · exact Or.inl h1
          · exact Or.inr ⟨idx, dist, List.mem_cons_self _ _, h,
              List.mem_singleton.mp h1⟩
        · rw [if_neg hfull] at hr
          rcases ih _ r hr with h1 | ⟨i2, d2, hm, hlt, he⟩
          · rcases List.mem_append.mp h1 with h2 | h2
            · exact Or.inl h2
            · exact Or.inr ⟨idx, dist, List.mem_cons_self _ _, h,
                List.mem_singleton.mp h2⟩
          · exact Or.inr ⟨i2, d2, List.mem_cons_of_mem _ hm, hlt, he⟩
    · rw [dif_neg h] at hr
      rcases ih acc r hr with h1 | ⟨i2, d2, hm, hlt, he⟩
      · exact Or.inl h1
      · exact Or.inr ⟨i2, d2, List.mem_cons_of_mem _ hm, hlt, he⟩

/-- The break at `top_k` keeps the result count bounded. -/
theorem collectResults_length (metadata : List ChunkMetadata)
    (doc_ids : Option (List String)) (top_k : Nat) :
    ∀ (items : List (Nat × ℚ)) (acc : List (ChunkMetadata × ℚ)),
      acc.length < top_k →
      (collectResults metadata doc_ids top_k items acc).length ≤ top_k := by
  intro items
  induction items with
  | nil =>
    intro acc hacc
    exact Nat.le_of_lt hacc
  | cons it rest ih =>
    rcases it with ⟨idx, dist⟩
    intro acc hacc
    simp only [collectResults]
    by_cases h : idx < metadata.length
    · rw [dif_pos h]
      by_cases hfil : truthyDocIds doc_ids = true ∧
          (metadata.get ⟨idx, h⟩).doc_id ∉ doc_ids.getD []
      · rw [if_pos hfil]
        exact ih acc hacc
      · rw [if_neg hfil]
        by_cases hfull :
            (acc ++ [(metadata.get ⟨idx, h⟩, 1 / (1 + dist))]).length ≥ top_k
        · rw [if_pos hfull]
          simp only [List.length_append, List.length_cons, List.length_nil]
          omega
        · rw [if_neg hfull]
          exact ih _ (by omega)
    · rw [dif_neg h]
      exact ih acc hacc

/-- When the `doc_ids` filter is active, only matching results are
appended. -/
theorem collectResults_docids (metadata : List ChunkMetadata)
    (ds : List String) (hds : ds ≠ []) (top_k : Nat) :
    ∀ (items : List (Nat × ℚ)) (acc : List (ChunkMetadata × ℚ)),
      (∀ a ∈ acc, a.1.doc_id ∈ ds) →
      ∀ r ∈ collectResults metadata (some ds) top_k items acc,
        r.1.doc_id ∈ ds := by
  have htruthy : truthyDocIds (some ds) = true := by
    simp [truthyDocIds, hds]
  intro items
  induction items with
  | nil => exact fun acc hacc r hr => hacc r hr
  | cons it rest ih =>
    rcases it with ⟨idx, dist⟩
    intro acc hacc r hr
    simp only [collectResults] at hr
    by_cases h : idx < metadata.length
    · rw [dif_pos h] at hr
      by_cases hfil : truthyDocIds (some ds) = true ∧
          (metadata.get ⟨idx, h⟩).doc_id ∉ (some ds : Option (List String)).getD []
      · rw [if_pos hfil] at hr
        exact ih acc hacc r hr
      · rw [if_neg hfil] at hr
        have hmem : (metadata.get ⟨idx, h⟩).doc_id ∈ ds := by
          by_contra hno
          exact hfil ⟨htruthy, hno⟩
        have hacc2 : ∀ a ∈ acc ++ [(metadata.get ⟨idx, h⟩, 1 / (1 + dist))],
            a.1.doc_id ∈ ds := by
          intro a ha
          rcases List.mem_append.mp ha with h1 | h1
          · exact hacc a h1
          · rw [List.mem_singleton.mp h1]
            exact hmem
        by_cases hfull :
            (acc ++ [(metadata.get ⟨idx, h⟩, 1 / (1 + dist))]).length ≥ top_k
        · rw [if_pos hfull] at hr
          exact hacc2 r hr
        · rw [if_neg hfull] at hr
          exact ih _ hacc2 r hr
    · rw [dif_neg h] at hr
      exact ih acc hacc r hr

/-- Collected similarities are non-increasing when the candidate distances
are non-decreasing and non-negative. -/
theorem collectResults_pairwise (metadata : List ChunkMetadata)
    (doc_ids : Option (List String)) (top_k : Nat) :
    ∀ (items : List (Nat × ℚ)) (acc : List (ChunkMetadata × ℚ)),
      (∀ it ∈ items, (0:ℚ) ≤ it.2) →
      List.Pairwise (fun a b : Nat × ℚ => a.2 ≤ b.2) items →
      List.Pairwise (fun x y : ChunkMetadata × ℚ => y.2 ≤ x.2) acc →
      (∀ a ∈ acc, ∀ it ∈ items, 1 / (1 + it.2) ≤ a.2) →
      List.Pairwise (fun x y : ChunkMetadata × ℚ => y.2 ≤ x.2)
        (collectResults metadata doc_ids top_k items acc) := by
  intro items
  induction items with
  | nil => exact fun acc _ _ hacc _ => hacc
  | cons it rest ih =>
    rcases it with ⟨idx, dist⟩
    intro acc hnn hsrt hacc hcross
    have hnn_rest : ∀ it ∈ rest, (0:ℚ) ≤ it.2 :=
      fun it hit => hnn it (List.mem_cons_of_mem _ hit)
    have hsrt_rest : List.Pairwise (fun a b : Nat × ℚ => a.2 ≤ b.2) rest :=
      (List.pairwise_cons.mp hsrt).2
    have hhead : ∀ it ∈ rest, dist ≤ it.2 :=
      fun it hit => (List.pairwise_cons.mp hsrt).1 it hit
    have hdist0 : (0:ℚ) ≤ dist := hnn _ (List.mem_cons_self _ _)
    simp only [collectResults]
    by_cases h : idx < metadata.length
    · rw [dif_pos h]
      by_cases hfil : truthyDocIds doc_ids = true ∧
          (metadata.get ⟨idx, h⟩).doc_id ∉ doc_ids.getD []
      · rw [if_pos hfil]
        exact ih acc hnn_rest hsrt_rest hacc
          (fun a ha it hit => hcross a ha it (List.mem_cons_of_mem _ hit))
      · rw [if_neg hfil]
        have haccx : List.Pairwise (fun x y : ChunkMetadata × ℚ => y.2 ≤ x.2)
            (acc ++ [(metadata.get ⟨idx, h⟩, 1 / (1 + dist))]) := by
          rw [List.pairwise_append]
          exact ⟨hacc, List.pairwise_singleton _ _,
            fun a ha b hb => by
              rw [List.mem_singleton.mp hb]
              exact hcross a ha (idx, dist) (List.mem_cons_self _ _)⟩
        by_cases hfull :
            (acc ++ [(metadata.get ⟨idx, h⟩, 1 / (1 + dist))]).length ≥ top_k
        · rw [if_pos hfull]
          exact haccx
        · rw [if_neg hfull]
          apply ih _ hnn_rest hsrt_rest haccx
          intro a ha it hit
          rcases List.mem_append.mp ha with h1 | h1
          · exact hcross a h1 it (List.mem_cons_of_mem _ hit)
          · rw [List.mem_singleton.mp h1]
            exact simil_antitone hdist0 (hhead it hit)
    · rw [dif_neg h]
      exact ih acc hnn_rest hsrt_rest hacc
        (fun a ha it hit => hcross a ha it (List.mem_cons_of_mem _ hit))

/-- `search` outside the empty-index short-circuit. -/
theorem search_eq_collect (vs : VectorStore) (q : List ℚ) (top_k : Nat)
    (doc_ids : Option (List String)) (hz : ¬ vs.vectors.length = 0) :
    search vs q top_k doc_ids
      = collectResults vs.metadata doc_ids top_k
          ((faissRank vs q).take
            (min (if truthyDocIds doc_ids = true then top_k * 10 else top_k)
              vs.vectors.length)) [] := by
  simp only [search, if_neg hz]

/-- `search` never returns more than `top_k` results. -/
theorem search_length_le (vs : VectorStore) (q : List ℚ) (top_k : Nat)
    (doc_ids : Option (List String)) :
    (search vs q top_k doc_ids).length ≤ top_k := by
  by_cases hz : vs.vectors.length = 0
  · simp [search, hz]
  · rw [search_eq_collect vs q top_k doc_ids hz]
    by_cases htop : top_k = 0
    · subst htop
      have hmin : min (if truthyDocIds doc_ids = true then 0 * 10 else 0)
          vs.vectors.length = 0 := by
        by_cases ht : truthyDocIds doc_ids = true <;> simp [ht]
      rw [hmin]
      simp [collectResults]
    · exact collectResults_length vs.metadata doc_ids top_k _ []
        (by simp; omega)

/-- C6: search returns at most `top_k` results ordered by non-increasing
similarity; each similarity equals `1 / (1 + d)` for `d` the squared
Euclidean distance between the query and the stored vector of that row
(hence lies in `(0, 1]`); an empty index yields the empty list, not an
error. -/
theorem search_spec (vs : VectorStore) (q : List ℚ) (top_k : Nat)
    (doc_ids : Option (List String))
    (hq : q.length = vs.embedding_dim)
    (hv : ∀ v ∈ vs.vectors, v.length = vs.embedding_dim) :
    (search vs q top_k doc_ids).length ≤ top_k ∧
    List.Pairwise (fun x y : ChunkMetadata × ℚ => y.2 ≤ x.2)
      (search vs q top_k doc_ids) ∧
    (∀ r ∈ search vs q top_k doc_ids, 0 < r.2 ∧ r.2 ≤ 1 ∧
      ∃ i : Nat, ∃ v, vs.vectors[i]? = some v ∧ vs.metadata[i]? = some r.1 ∧
        r.2 = 1 / (1 + sqDist q v)) ∧
    (vs.vectors.length = 0 → search vs q top_k doc_ids = []) := by
  refine ⟨search_length_le vs q top_k doc_ids, ?_, ?_, ?_⟩
  · by_cases hz : vs.vectors.length = 0
    · simp [search, hz]
    · rw [search_eq_collect vs q top_k doc_ids hz]
      apply collectResults_pairwise
      · intro it hit
        rcases mem_faissRank vs q it (List.take_subset _ _ hit) with ⟨h1, h2⟩
        rw [h2]
        exact sqDist_nonneg _ _
      · exact List.Pairwise.sublist (List.take_sublist _ _)
          (faissRank_sorted vs q)
      · exact List.Pairwise.nil
      · intro a ha
        exact absurd ha (List.not_mem_nil a)
  · intro r hr
    by_cases hz : vs.vectors.length = 0
    · rw [show search vs q top_k doc_ids = [] from by simp [search, hz]] at hr
      exact absurd hr (List.not_mem_nil r)
    · rw [search_eq_collect vs q top_k doc_ids hz] at hr
      rcases collectResults_mem vs.metadata doc_ids top_k _ [] r hr with
        h1 | ⟨idx, dist, hm, hlt, he⟩
      · exact absurd h1 (List.not_mem_nil r)
      · rcases mem_faissRank vs q (idx, dist) (List.take_subset _ _ hm) with
          ⟨hlt2, hdist⟩
        have hlt2' : idx < vs.vectors.length := hlt2
        have hdist' : dist = sqDist q (vs.vectors.get ⟨idx, hlt2'⟩) := hdist
        subst he
        refine ⟨?_, ?_, idx, vs.vectors.get ⟨idx, hlt2'⟩, ?_, ?_, ?_⟩
        · exact simil_pos (by rw [hdist']; exact sqDist_nonneg _ _)
        · exact simil_le_one (by rw [hdist']; exact sqDist_nonneg _ _)
        · rw [List.get_eq_getElem]
          exact List.getElem?_eq_getElem hlt2'
        · rw [List.get_eq_getElem]
          exact List.getElem?_eq_getElem hlt
        · rw [← hdist']
  · intro h0
    simp [search, h0]

/-- C7: when a non-empty `doc_ids` list is supplied, every returned
result's `doc_id` belongs to it, and at most `top_k` results come back —
the filter draws on the over-fetched candidate pool and never pads. -/
theorem search_docids_filter (vs : VectorStore) (q : List ℚ) (top_k : Nat)
    (ds : List String) (hds : ds ≠ []) :
    (∀ r ∈ search vs q top_k (some ds), r.1.doc_id ∈ ds) ∧
    (search vs q top_k (some ds)).length ≤ top_k := by
  refine ⟨?_, search_length_le vs q top_k (some ds)⟩
  intro r hr
  by_cases hz : vs.vectors.length = 0
  · rw [show search vs q top_k (some ds) = [] from by simp [search, hz]] at hr
    exact absurd hr (List.not_mem_nil r)
  · rw [search_eq_collect vs q top_k (some ds) hz] at hr
    exact collectResults_docids vs.metadata ds hds top_k _ []
      (fun a ha => absurd ha (List.not_mem_nil a)) r hr

/-- The collection loop ignores a `doc_ids` argument that is an empty
list, exactly as it ignores an absent one. -/
theorem collectResults_empty_docids (metadata : List ChunkMetadata)
    (top_k : Nat) :
    ∀ (items : List (Nat × ℚ)) (acc : List (ChunkMetadata × ℚ)),
      collectResults metadata (some []) top_k items acc
        = collectResults metadata none top_k items acc := by
  intro items
  induction items with
  | nil => exact fun acc => rfl
  | cons it rest ih =>
    rcases it with ⟨idx, dist⟩
    intro acc
    simp only [collectResults]
    by_cases h : idx < metadata.length
    · rw [dif_pos h, dif_pos h]
      have h1 : ¬ (truthyDocIds (some []) = true ∧
          (metadata.get ⟨idx, h⟩).doc_id ∉
            (some ([] : List String)).getD []) := by
        simp [truthyDocIds]
      have h2 : ¬ (truthyDocIds none = true ∧
          (metadata.get ⟨idx, h⟩).doc_id ∉
            (none : Option (List String)).getD []) := by
        simp [truthyDocIds]
      rw [if_neg h1, if_neg h2]
      by_cases hfull :
          (acc ++ [(metadata.get ⟨idx, h⟩, 1 / (1 + dist))]).length ≥ top_k
      · rw [if_pos hfull, if_pos hfull]
      · rw [if_neg hfull, if_neg hfull]
        exact ih _
    · rw [dif_neg h, dif_neg h]
      exact ih acc

/-- C10: calling `search` with `doc_ids = []` applies no filtering at all
and behaves exactly like a call with `doc_ids` absent, rather than
returning the empty result that filtering against an empty set would
give. -/
theorem search_empty_docids (vs : VectorStore) (q : List ℚ) (top_k : Nat) :
    search vs q top_k (some []) = search vs q top_k none := by
  unfold search
  by_cases hz : vs.vectors.length = 0
  · rw [if_pos hz, if_pos hz]
  · rw [if_neg hz, if_neg hz]
    have ht : truthyDocIds (some []) = false := rfl
    have ht2 : truthyDocIds none = false := rfl
    simp only [ht, ht2, Bool.false_eq_true, if_false]
    exact collectResults_empty_docids vs.metadata top_k _ []

/-- C5 witness at the concrete three-row store. -/
theorem delete_document_spec_witness :
    (sampleStore.vectors.length = sampleStore.metadata.length) ∧
    (get_chunks_by_doc_id (delete_document sampleStore "a") "a" = [] ∧
    total_chunks (delete_document sampleStore "a")
      = total_chunks sampleStore
        - (get_chunks_by_doc_id sampleStore "a").length ∧
    (delete_document sampleStore "a").metadata
      = sampleStore.metadata.filter (fun m => ¬ m.doc_id = "a") ∧
    (delete_document sampleStore "a").vectors
      = ((sampleStore.vectors.zip sampleStore.metadata).filter
          (fun p => ¬ p.2.doc_id = "a")).map Prod.fst ∧
    (get_chunks_by_doc_id sampleStore "a" = [] →
      delete_document sampleStore "a" = sampleStore)) :=
  ⟨by decide, delete_document_spec sampleStore "a" (by decide)⟩

/-- C6 witness at the concrete three-row store. -/
theorem search_spec_witness :
    (([1, 0] : List ℚ).length = sampleStore.embedding_dim) ∧
    (∀ v ∈ sampleStore.vectors, v.length = sampleStore.embedding_dim) ∧
    ((search sampleStore [1, 0] 5 none).length ≤ 5 ∧
    List.Pairwise (fun x y : ChunkMetadata × ℚ => y.2 ≤ x.2)
      (search sampleStore [1, 0] 5 none) ∧
    (∀ r ∈ search sampleStore [1, 0] 5 none, 0 < r.2 ∧ r.2 ≤ 1 ∧
      ∃ i : Nat, ∃ v, sampleStore.vectors[i]? = some v ∧
        sampleStore.metadata[i]? = some r.1 ∧
        r.2 = 1 / (1 + sqDist [1, 0] v)) ∧
    (sampleStore.vectors.length = 0 → search sampleStore [1, 0] 5 none = [])) :=
  ⟨by decide, by decide,
    search_spec sampleStore [1, 0] 5 none (by decide) (by decide)⟩

/-- C7 witness at the concrete three-row store. -/
theorem search_docids_filter_witness :
    (["a"] ≠ ([] : List String)) ∧
    ((∀ r ∈ search sampleStore [1, 0] 5 (some ["a"]), r.1.doc_id ∈ ["a"]) ∧
    (search sampleStore [1, 0] 5 (some ["a"])).length ≤ 5) :=
  ⟨by decide, search_docids_filter sampleStore [1, 0] 5 ["a"] (by decide)⟩

/-- C8: a question that is blank after trimming is rejected with the 400
validation error immediately, for every embedding provider, generative
backend and store alike — the constant result shows no embedding call can
have been made, and there is no retry. -/
theorem blank_question_rejected (embed : String → List ℚ)
    (llm : String → Except String String)
    (reSearch : String → String → Option String)
    (vs : VectorStore) (question : String)
    (doc_ids : Option (List String)) (top_k : Nat)
    (hblank : pyStrip question = "") :
    query_documents embed llm reSearch vs question doc_ids top_k
      = Except.error 400 := by
  unfold query_documents
  rw [if_pos hblank]

/-- C8 witness: the whitespace-only question. -/
theorem blank_question_rejected_witness :
    (pyStrip "   " = "") ∧
    (query_documents (fun _ => []) (fun _ => Except.error "down")
        (fun _ _ => none) sampleStore "   " none 5 = Except.error 400) :=
  ⟨by decide,
    blank_question_rejected (fun _ => []) (fun _ => Except.error "down")
      (fun _ _ => none) sampleStore "   " none 5 (by decide)⟩

theorem str_append_ne_empty (s t : String) (hs : s.data ≠ []) :
    s ++ t ≠ "" := by
  intro he
  have h3 : s.data ++ t.data = ([] : List Char) := congrArg String.data he
  rcases List.append_eq_nil.mp h3 with ⟨h4, _⟩
  exact hs h4

/-- The left part of a string append survives in the character data. -/
theorem str_data_append_ne_nil (s t : String) (hs : s.data ≠ []) :
    (s ++ t).data ≠ [] :=
  fun he => hs (List.append_eq_nil.mp he).1

/-- A summary answer, when produced, is non-empty. -/
theorem summaryAnswer_ne_empty (reSearch : String → String → Option String)
    (c a : String) (ha : summaryAnswer reSearch c = some a) : a ≠ "" := by
  simp only [summaryAnswer] at ha
  split_ifs at ha
  cases ha
  exact str_append_ne_empty _ _ (by decide)

/-- Every extracted fallback answer is a non-empty sentence. -/
theorem fallbackExtract_ne_empty (reSearch : String → String → Option String)
    (ql c a : String)
    (ha : fallbackExtract reSearch ql c = some a) : a ≠ "" := by
  unfold fallbackExtract at ha
  split_ifs at ha <;>
    first
    | (rcases Option.map_eq_some'.mp ha with ⟨g, hg, rfl⟩
       exact str_append_ne_empty _ _ (str_data_append_ne_nil _ _ (by decide)))
    | exact summaryAnswer_ne_empty reSearch c a ha

/-- The fallback never raises and never returns an empty answer. -/
theorem generateFallbackAnswer_ne_empty
    (reSearch : String → String → Option String) (question context : String) :
    generateFallbackAnswer reSearch question context ≠ "" := by
  unfold generateFallbackAnswer
  cases h : fallbackExtract reSearch (pyLower question) context with
  | some a => exact fallbackExtract_ne_empty _ _ _ a h
  | none =>
    exact str_append_ne_empty _ _ (str_data_append_ne_nil _ _ (by decide))

/-- The collection loop never shrinks its accumulator. -/
theorem collectResults_length_ge (metadata : List ChunkMetadata)
    (doc_ids : Option (List String)) (top_k : Nat) :
    ∀ (items : List (Nat × ℚ)) (acc : List (ChunkMetadata × ℚ)),
      acc.length ≤ (collectResults metadata doc_ids top_k items acc).length := by
  intro items
  induction items with
  | nil => exact fun acc => Nat.le_refl _
  | cons it rest ih =>
    rcases it with ⟨idx, dist⟩
    intro acc
    simp only [collectResults]
    by_cases h : idx < metadata.length
    · rw [dif_pos h]
      by_cases hfil : truthyDocIds doc_ids = true ∧
          (metadata.get ⟨idx, h⟩).doc_id ∉ doc_ids.getD []
      · rw [if_pos hfil]
        exact ih acc
      · rw [if_neg hfil]
        by_cases hfull :
            (acc ++ [(metadata.get ⟨idx, h⟩, 1 / (1 + dist))]).length ≥ top_k
        · rw [if_pos hfull]
          simp
        · rw [if_neg hfull]
          exact Nat.le_trans (by simp) (ih _)
    · rw [dif_neg h]
      exact ih acc

/-- An unfiltered search over a populated, aligned store with a positive
`top_k` returns at least one result. -/
theorem search_ne_nil (vs : VectorStore) (q : List ℚ) (top_k : Nat)
    (hn : vs.vectors.length ≠ 0)
    (halign : vs.metadata.length = vs.vectors.length) (htop : 0 < top_k) :
    search vs q top_k none ≠ [] := by
  rw [search_eq_collect vs q top_k none hn]
  have ht : truthyDocIds none = false := rfl
  simp only [ht, Bool.false_eq_true, if_false]
  have hranklen : (faissRank vs q).length = vs.vectors.length := by
    rw [faissRank, (List.mergeSort_perm _ _).length_eq, List.enum_length,
      List.length_map]
  have hpos :
      0 < ((faissRank vs q).take (min top_k vs.vectors.length)).length := by
    rw [List.length_take, hranklen]
    omega
  rcases hc : (faissRank vs q).take (min top_k vs.vectors.length) with
    _ | ⟨⟨i, d⟩, rest⟩
  · rw [hc] at hpos
    simp at hpos
  · have hmem : (i, d) ∈ faissRank vs q := by
      have h2 : (i, d) ∈ (faissRank vs q).take (min top_k vs.vectors.length) := by
        rw [hc]
        exact List.mem_cons_self _ _
      exact List.take_subset _ _ h2
    rcases mem_faissRank vs q (i, d) hmem with ⟨hi, _⟩
    have hi' : i < vs.metadata.length := by
      rw [halign]
      exact hi
    simp only [collectResults, dif_pos hi']
    have hfil : ¬ (truthyDocIds none = true ∧
        (vs.metadata.get ⟨i, hi'⟩).doc_id ∉
          (none : Option (List String)).getD []) := by
      simp [truthyDocIds]
    rw [if_neg hfil]
    by_cases hfull :
        (([] : List (ChunkMetadata × ℚ))
          ++ [(vs.metadata.get ⟨i, hi'⟩, 1 / (1 + d))]).length ≥ top_k
    · rw [if_pos hfull]
      simp
    · rw [if_neg hfull]
      apply List.length_pos.mp
      exact Nat.lt_of_lt_of_le (by simp)
        (collectResults_length_ge vs.metadata none top_k rest _)

/-- C9: whenever the search yields at least one source and the generative
backend fails with any exception, `query` does not raise: its answer is
exactly the deterministic keyword-triggered fallback over the assembled
context (which degrades to the truncated ~500-character context preview
when no keyword matches or no pattern extracts), and that answer is never
the empty string. -/
theorem llm_failure_fallback (embed : String → List ℚ)
    (reSearch : String → String → Option String) (errmsg : String)
    (vs : VectorStore) (question : String)
    (doc_ids : Option (List String)) (top_k : Nat)
    (hsrc : search vs (embed question) top_k doc_ids ≠ []) :
    (ragQuery embed (fun _ => Except.error errmsg) reSearch vs question
        doc_ids top_k).answer
      = generateFallbackAnswer reSearch question
          (buildContext ((search vs (embed question) top_k doc_ids).map
            (fun p => p.1.text))) ∧
    (ragQuery embed (fun _ => Except.error errmsg) reSearch vs question
        doc_ids top_k).answer ≠ "" := by
  have hne : ¬ (search vs (embed question) top_k doc_ids).isEmpty = true := by
    rw [List.isEmpty_iff]
    exact hsrc
  have h1 : (ragQuery embed (fun _ => Except.error errmsg) reSearch vs
      question doc_ids top_k).answer
      = generateFallbackAnswer reSearch question
          (buildContext ((search vs (embed question) top_k doc_ids).map
            (fun p => p.1.text))) := by
    simp only [ragQuery, if_neg hne]
    rfl
  exact ⟨h1, by
    rw [h1]
    exact generateFallbackAnswer_ne_empty reSearch question _⟩

/-- C9 witness: a concrete populated store, an erroring backend and a
non-matching extractor. -/
theorem llm_failure_fallback_witness :
    (search sampleStore [1, 0] 5 none ≠ []) ∧
    ((ragQuery (fun _ => [1, 0]) (fun _ => Except.error "boom")
        (fun _ _ => none) sampleStore "what is covered" none 5).answer
      = generateFallbackAnswer (fun _ _ => none) "what is covered"
          (buildContext ((search sampleStore [1, 0] 5 none).map
            (fun p => p.1.text))) ∧
    (ragQuery (fun _ => [1, 0]) (fun _ => Except.error "boom")
        (fun _ _ => none) sampleStore "what is covered" none 5).answer ≠ "") :=
  ⟨search_ne_nil sampleStore [1, 0] 5 (by decide) (by decide) (by decide),
   llm_failure_fallback (fun _ => [1, 0]) (fun _ _ => none) "boom"
     sampleStore "what is covered" none 5
     (search_ne_nil sampleStore [1, 0] 5 (by decide) (by decide) (by decide))⟩

end Badge
